import Mathlib

/-!
Shallow embedding of the record manager in `src/prog/ind1.py` (class `Planes`;
`src/prog/ind2.py` is the same program with `Plane`/`Planes` renamed to
`Train`/`Trains` and different column labels).  The store is the `planes`
list of the `Planes` dataclass; every operation of the class is embedded as
a pure function on `List Plane`.
-/

/-- Record type from `src/prog/ind1.py` lines 36-45: destination name, plane
number, and the departure time kept in its original string form. -/
structure Plane where
  name : String
  no : String
  time_str : String
deriving DecidableEq, Repr

/-- Exception from lines 14-21: carries the offending time string and a
message. -/
structure IllegalDateError where
  date_str : String
  message : String
deriving DecidableEq, Repr

/-- ASCII digit test, `48 ≤ code ≤ 57` (the `\d` of the strptime regex on
ASCII input). -/
def isDigitChar (c : Char) : Bool := 48 ≤ c.toNat && c.toNat ≤ 57

/-- Numeric value of an ASCII digit character. -/
def dval (c : Char) : Nat := c.toNat - 48

/-- Model of `datetime.strptime(t, "%H:%M")` from line 55 (success and the
parsed hour/minute, or failure).  CPython's `_strptime` compiles `"%H:%M"` to
the anchored regex `(2[0-3]|[0-1]\d|\d):([0-5]\d|\d)` and rejects unconverted
trailing data, so the accepted strings are exactly: a one- or two-digit hour
whose value is at most 23, a colon, and a one- or two-digit minute whose
value is at most 59 — zero padding is not required.  Digits are modelled as
ASCII digits.  The match is on the length of the string (3 to 5 characters);
the position of the colon then selects between the one- and two-digit hour
forms, exactly as the regex alternation does. -/
def parseHM (t : String) : Option (Nat × Nat) :=
  match t.data with
  | [a, b, c] =>
    if b == ':' && isDigitChar a && isDigitChar c then some (dval a, dval c)
    else none
  | [a, b, c, d] =>
    if b == ':' && isDigitChar a && isDigitChar c && isDigitChar d
        && decide (10 * dval c + dval d ≤ 59) then
      some (dval a, 10 * dval c + dval d)
    else if c == ':' && isDigitChar a && isDigitChar b
        && decide (10 * dval a + dval b ≤ 23) && isDigitChar d then
      some (10 * dval a + dval b, dval d)
    else none
  | [a, b, c, d, e] =>
    if c == ':' && isDigitChar a && isDigitChar b
        && decide (10 * dval a + dval b ≤ 23) && isDigitChar d && isDigitChar e
        && decide (10 * dval d + dval e ≤ 59) then
      some (10 * dval a + dval b, 10 * dval d + dval e)
    else none
  | _ => none

/-- Value of a list of digit characters read in base 10. -/
def digitsVal (l : List Char) : Nat := l.foldl (fun n c => 10 * n + dval c) 0

/-- Declarative description (independent of `parseHM`) of the time strings
`add` accepts: a 1-2 digit hour at most 23, a colon, and a 1-2 digit minute
at most 59.  Used to state the corrected form of claim C3. -/
def specTimeAccepted (t : String) : Prop :=
  ∃ hd md : List Char, t.data = hd ++ ':' :: md ∧
    hd ≠ [] ∧ hd.length ≤ 2 ∧ (∀ c ∈ hd, isDigitChar c) ∧ digitsVal hd ≤ 23 ∧
    md ≠ [] ∧ md.length ≤ 2 ∧ (∀ c ∈ md, isDigitChar c) ∧ digitsVal md ≤ 59

/-- Stable insertion of a record into a list: the new record goes after every
record whose name is not greater.  Python string comparison is lexicographic
on code points, which is exactly `<` on `String.data` (`List Char`). -/
def insertByName (p : Plane) : List Plane → List Plane
  | [] => [p]
  | q :: qs =>
    if p.name.data < q.name.data then p :: q :: qs else q :: insertByName p qs

/-- Model of `self.planes.sort(key=lambda plane: plane.name)` (line 63):
`list.sort` is a stable ascending sort by the key, modelled as a stable
insertion sort processing the list in order (any stable sort by the same key
is extensionally this function). -/
def sortByName (l : List Plane) : List Plane :=
  l.foldl (fun acc p => insertByName p acc) []

/-- Lexicographic name order between records: `a.name ≤ b.name` on code
points, written as the negation of the strict order so that it evaluates. -/
def nameLe (a b : Plane) : Prop := ¬ b.name.data < a.name.data

/-- `Planes.add` from lines 52-63: validate the time string (raising
`IllegalDateError` with the original string and the Russian message on
failure, before the list is touched), then append a record that stores the
time in its original string form and re-sort by name. -/
def Planes.add (planes : List Plane) (name no time : String) :
    Except IllegalDateError (List Plane) :=
  match parseHM time with
  | none => .error ⟨time, "Неверный формат времени, используйте HH:MM"⟩
  | some _ => .ok (sortByName (planes ++ [⟨name, no, time⟩]))

/-- The list held by the `Planes` object after an `add` call: the raise on
line 57 happens before the append on line 59, so a failed call leaves the
previous list in place. -/
def storeAfterAdd (planes : List Plane) (name no time : String) : List Plane :=
  match Planes.add planes name no time with
  | .ok s => s
  | .error _ => planes

/-- A sequence of `add` calls (name, number, time triples), each leaving the
store unchanged when it fails. -/
def addAll (planes : List Plane) (reqs : List (String × String × String)) :
    List Plane :=
  reqs.foldl (fun s r => storeAfterAdd s r.1 r.2.1 r.2.2) planes

/-- `Planes.select` from lines 89-94: collect, in store order, the records
whose `no` field equals the given string. -/
def Planes.select (planes : List Plane) (nomer : String) : List Plane :=
  planes.foldl (fun result plane =>
    if plane.no == nomer then result ++ [plane] else result) []

/-- `n` spaces. -/
def spaces (n : Nat) : String := String.mk (List.replicate n ' ')

/-- `n` dashes. -/
def dashes (n : Nat) : String := String.mk (List.replicate n '-')

/-- Python `"{:>w}"`: right-align in `w` characters. -/
def padLeft (w : Nat) (s : String) : String := spaces (w - s.length) ++ s

/-- Python `"{:<w}"`: left-align in `w` characters. -/
def padRight (w : Nat) (s : String) : String := s ++ spaces (w - s.length)

/-- Python `"{:^w}"`: center in `w` characters, extra space on the right. -/
def padCenter (w : Nat) (s : String) : String :=
  spaces ((w - s.length) / 2) ++ s ++ spaces (w - s.length - (w - s.length) / 2)

/-- The border line built on line 68. -/
def tableLine : String :=
  "+-" ++ dashes 4 ++ "-+-" ++ dashes 25 ++ "-+-" ++ dashes 15 ++ "-+-"
    ++ dashes 20 ++ "-+"

/-- The header row built on lines 70-74, with the three data-column labels. -/
def tableHeader : String :=
  "| " ++ padCenter 4 "№" ++ " | " ++ padCenter 25 "Пункт назначения" ++ " | "
    ++ padCenter 15 "Номер самолета" ++ " | "
    ++ padCenter 20 "Время отправления" ++ " |"

/-- A data row (lines 79-83) for the record `p` numbered `idx`. -/
def tableRow (idx : Nat) (p : Plane) : String :=
  "| " ++ padLeft 4 (toString idx) ++ " | " ++ padRight 25 p.name ++ " | "
    ++ padRight 15 p.no ++ " | " ++ padLeft 20 p.time_str ++ " |"

/-- The list of lines accumulated in the local `table` variable of
`Planes.__str__` (lines 65-85): border, header, border, one numbered row per
record (numbering from 1, via `enumerate(self.planes, 1)`), and a final
border. -/
def tableLines (planes : List Plane) : List String :=
  [tableLine, tableHeader, tableLine]
    ++ (List.enumFrom 1 planes).map (fun ip => tableRow ip.1 ip.2)
    ++ [tableLine]

/-- `Planes.__str__` (line 87): the table lines joined with newlines. -/
def Planes.str (planes : List Plane) : String :=
  "\n".intercalate (tableLines planes)

/-- An element of the parsed document: tag, optional text, child elements
(the slice of `xml.etree.ElementTree.Element` the program uses). -/
structure XElem where
  tag : String
  text : Option String
  children : List XElem

/-- The three per-record variables of the loading loop (line 105). -/
structure Fields where
  name : Option String
  no : Option String
  time_str : Option String
deriving DecidableEq

/-- Lines 108-113: store the text of a `name`/`no`/`time` child in the
matching variable; other tags are ignored. -/
def setField (f : Fields) (el : XElem) : Fields :=
  if el.tag = "name" then { f with name := el.text }
  else if el.tag = "no" then { f with no := el.text }
  else if el.tag = "time" then { f with time_str := el.text }
  else f

/-- Lines 115-116: once all three variables are populated, a record is
appended; otherwise nothing is. -/
def emit (f : Fields) : List Plane :=
  match f.name, f.no, f.time_str with
  | some n, some o, some t => [⟨n, o, t⟩]
  | _, _, _ => []

/-- One iteration of the inner loop of `Planes.load` (lines 107-116): update
the field variables from the child element, then append a record if all
three are populated.  The completeness check runs after every child, not
once per record element. -/
def loadStep (st : Fields × List Plane) (el : XElem) : Fields × List Plane :=
  (setField st.1 el, st.2 ++ emit (setField st.1 el))

/-- Processing of one record element (one iteration of the outer loop,
lines 104-116): the field variables start out empty, records accumulate onto
the shared list. -/
def loadEntry (acc : List Plane) (entry : XElem) : List Plane :=
  (entry.children.foldl loadStep (⟨none, none, none⟩, acc)).2

/-- `Planes.load` after a successful read and parse (lines 103-116): the old
list is discarded and every record element of the root is processed. -/
def Planes.load (root : XElem) : List Plane :=
  root.children.foldl loadEntry []

/-- The records contributed by a single record element. -/
def entryRecords (entry : XElem) : List Plane := loadEntry [] entry

/-- Failures of the read/parse phase of `Planes.load` (lines 96-101): an
`IOError` from `open`/`read` or an `xml.etree.ElementTree.ParseError` from
`ET.fromstring`. -/
inductive LoadFailure where
  | ioError (message : String)
  | parseError (message : String)
deriving DecidableEq

/-- `Planes.load` including its fallible read/parse phase: `input` is the
outcome of `open`/`read`/`ET.fromstring` (lines 97-101).  The list is
reassigned only on line 103, after both have succeeded, so a failure
propagates before the store is touched. -/
def Planes.loadFrom (planes : List Plane) (input : Except LoadFailure XElem) :
    Except LoadFailure (List Plane) :=
  match input with
  | .error e => .error e
  | .ok root => .ok (Planes.load root)

/-- The list held by the `Planes` object after a `load` call. -/
def storeAfterLoad (planes : List Plane) (input : Except LoadFailure XElem) :
    List Plane :=
  match Planes.loadFrom planes input with
  | .ok s => s
  | .error _ => planes

/-- The element built for one record by `Planes.save` (lines 121-132): a
`plane` element with `name`, `no`, `time` children carrying the fields as
text. -/
def planeElement (p : Plane) : XElem :=
  ⟨"plane", none,
    [⟨"name", some p.name, []⟩, ⟨"no", some p.no, []⟩,
     ⟨"time", some p.time_str, []⟩]⟩

/-- `Planes.save` (lines 118-136): the document tree written to the file, a
`planes` root with one `plane` element per record, in store order. -/
def Planes.save (planes : List Plane) : XElem :=
  ⟨"planes", none, planes.map planeElement⟩

/-- Text round-trip through `ElementTree.write` + `ET.fromstring`: an element
whose text is the empty string is serialized as an empty tag (`text` is
falsy in `_serialize_xml`), which parses back with `text = None`; any other
text is escaped and restored verbatim. -/
def normText : Option String → Option String
  | some s => if s = "" then none else some s
  | none => none

/-- The element tree obtained by writing a tree with `tree.write` (line 136)
and parsing the resulting file again with `ET.fromstring` (line 101): tags
and children are preserved, empty text becomes missing text. -/
def etWriteRead : XElem → XElem
  | ⟨t, txt, cs⟩ =>
    ⟨t, normText txt, cs.attach.map (fun c => etWriteRead c.1)⟩
decreasing_by
  have := List.sizeOf_lt_of_mem c.2
  simp_wf
  omega

/-- `save(path)` followed by `load(path)` on the same path: the saved tree is
written to disk, read back, parsed, and loaded. -/
def saveLoadRoundTrip (planes : List Plane) : List Plane :=
  Planes.load (etWriteRead (Planes.save planes))

/-- A record survives the save/load round trip exactly when none of its
fields is the empty string. -/
def keptInRoundTrip (p : Plane) : Bool :=
  !(p.name == "") && !(p.no == "") && !(p.time_str == "")

/-- Invariant used to reason about the inner loading loop: the required
field named `tagName` has the value `v`, either because exactly one child
with that tag remains and it carries the text `v`, or because no such child
remains and the loop variable read by `get` already holds `v`. -/
def FieldOk (tagName : String) (get : Fields → Option String) (v : String)
    (es : List XElem) (f : Fields) : Prop :=
  (es.filter (fun c => c.tag == tagName)).map (fun c => c.text) = [some v] ∨
    ((∀ c ∈ es, c.tag ≠ tagName) ∧ get f = some v)

theorem insertByName_append (p : Plane) (l : List Plane)
    (h : ∀ q ∈ l, ¬ p.name.data < q.name.data) :
    insertByName p l = l ++ [p] := by
  induction l with
  | nil => rfl
  | cons q qs ih =>
    rw [insertByName, if_neg (h q (by simp))]
    simp [ih (fun x hx => h x (by simp [hx]))]

theorem mem_insertByName {a p : Plane} {l : List Plane} :
    a ∈ insertByName p l ↔ a = p ∨ a ∈ l := by
  induction l with
  | nil => simp [insertByName]
  | cons q qs ih =>
    rw [insertByName]
    split
    · simp
    · simp [ih]
      tauto

theorem pairwise_insertByName {p : Plane} {l : List Plane}
    (h : l.Pairwise nameLe) : (insertByName p l).Pairwise nameLe := by
  induction l with
  | nil => simp [insertByName, List.Pairwise.nil]
  | cons q qs ih =>
    rcases List.pairwise_cons.mp h with ⟨hq, hqs⟩
    rw [insertByName]
    split
    · rename_i hlt
      refine List.pairwise_cons.mpr ⟨?_, h⟩
      intro b hb
      rcases List.mem_cons.mp hb with rfl | hb
      · exact lt_asymm hlt
      · exact fun hbp => (hq b hb) (lt_trans hbp hlt)
    · rename_i hnlt
      refine List.pairwise_cons.mpr ⟨?_, ih hqs⟩
      intro b hb
      rcases mem_insertByName.mp hb with rfl | hb
      · exact hnlt
      · exact hq b hb

theorem foldl_insertByName_sorted (l : List Plane) :
    ∀ acc : List Plane, l.Pairwise nameLe →
      (∀ a ∈ acc, ∀ b ∈ l, nameLe a b) →
      l.foldl (fun acc p => insertByName p acc) acc = acc ++ l := by
  induction l with
  | nil => simp
  | cons q qs ih =>
    intro acc hl hacc
    rcases List.pairwise_cons.mp hl with ⟨hq, hqs⟩
    have h1 : insertByName q acc = acc ++ [q] :=
      insertByName_append _ _ (fun a ha => hacc a ha q (by simp))
    rw [List.foldl_cons]
    show List.foldl _ (insertByName q acc) qs = _
    rw [h1, ih (acc ++ [q]) hqs ?_]
    · simp
    · intro a ha b hb
      rcases List.mem_append.mp ha with ha | ha
      · exact hacc a ha b (List.mem_cons_of_mem _ hb)
      · rcases List.mem_singleton.mp ha with rfl
        exact hq b hb

theorem sortByName_of_pairwise {l : List Plane} (h : l.Pairwise nameLe) :
    sortByName l = l := by
  have := foldl_insertByName_sorted l [] h (by simp)
  simpa [sortByName] using this

theorem sortByName_append_single {l : List Plane} (p : Plane)
    (h : l.Pairwise nameLe) :
    sortByName (l ++ [p]) = insertByName p l := by
  have h2 : List.foldl (fun acc p => insertByName p acc) [] l = l :=
    sortByName_of_pairwise h
  show List.foldl _ [] (l ++ [p]) = _
  rw [List.foldl_append, h2]
  rfl

theorem insertByName_take_drop (p : Plane) (l : List Plane) :
    insertByName p l
      = l.takeWhile (fun q => !decide (p.name.data < q.name.data))
        ++ p :: l.dropWhile (fun q => !decide (p.name.data < q.name.data)) := by
  induction l with
  | nil => simp [insertByName]
  | cons q qs ih =>
    rw [insertByName]
    by_cases h : p.name.data < q.name.data
    · simp [List.takeWhile_cons, List.dropWhile_cons, h]
    · simp [List.takeWhile_cons, List.dropWhile_cons, h, ih]

theorem mem_sortByName {a : Plane} {l : List Plane} :
    a ∈ sortByName l ↔ a ∈ l := by
  have key : ∀ (l acc : List Plane),
      a ∈ l.foldl (fun acc p => insertByName p acc) acc ↔ a ∈ acc ∨ a ∈ l := by
    intro l
    induction l with
    | nil => simp
    | cons q qs ih =>
      intro acc
      rw [List.foldl_cons]
      show a ∈ List.foldl _ (insertByName q acc) qs ↔ _
      rw [ih, mem_insertByName]
      simp
      tauto
  simpa [sortByName] using key l []

theorem pairwise_storeAfterAdd {s : List Plane} (hs : s.Pairwise nameLe)
    (name no time : String) :
    (storeAfterAdd s name no time).Pairwise nameLe := by
  unfold storeAfterAdd Planes.add
  cases parseHM time with
  | none => exact hs
  | some v =>
    simp only []
    rw [sortByName_append_single _ hs]
    exact pairwise_insertByName hs

/-- Claim C1: for every sequence of `add` calls starting from a store sorted
ascending by name, the store stays sorted ascending by name, and a single
successful `add` places the new record after every record whose name is not
greater and before every record with a greater name, leaving the relative
order of the pre-existing records unchanged (stable sort: equal names keep
insertion order). -/
theorem add_keeps_sorted_and_stable (s : List Plane)
    (hs : s.Pairwise nameLe) :
    (∀ reqs, (addAll s reqs).Pairwise nameLe) ∧
    (∀ name no time s₁, Planes.add s name no time = .ok s₁ →
      s₁.Pairwise nameLe ∧
      s₁ = s.takeWhile (fun q => !decide (name.data < q.name.data))
            ++ Plane.mk name no time
            :: s.dropWhile (fun q => !decide (name.data < q.name.data))) := by
  constructor
  · intro reqs
    induction reqs generalizing s with
    | nil => exact hs
    | cons r rs ih =>
      exact ih _ (pairwise_storeAfterAdd hs r.1 r.2.1 r.2.2)
  · intro name no time s₁ h
    unfold Planes.add at h
    cases hp : parseHM time with
    | none => rw [hp] at h; cases h
    | some v =>
      rw [hp] at h
      cases h
      rw [sortByName_append_single _ hs]
      exact ⟨pairwise_insertByName hs, insertByName_take_drop _ _⟩

theorem add_keeps_sorted_and_stable_witness :
    (([] : List Plane).Pairwise nameLe) ∧
    (addAll [] [("Moscow", "101", "14:30"), ("Kazan", "102", "09:15")]).Pairwise
      nameLe :=
  ⟨List.Pairwise.nil,
    (add_keeps_sorted_and_stable [] List.Pairwise.nil).1 _⟩

/-- Claim C2: when the time string does not parse as an HH:MM time of day,
`add` fails with `IllegalDateError` carrying the offending string and the
human-readable reason, and the store is left unmodified. -/
theorem add_invalid_time_fails (s : List Plane) (name no time : String)
    (h : parseHM time = none) :
    Planes.add s name no time
        = .error ⟨time, "Неверный формат времени, используйте HH:MM"⟩ ∧
      storeAfterAdd s name no time = s := by
  refine ⟨?_, ?_⟩ <;> simp [Planes.add, storeAfterAdd, h]

theorem add_invalid_time_fails_witness :
    parseHM "25:99" = none ∧
      (Planes.add [Plane.mk "Kazan" "102" "09:15"] "Moscow" "101" "25:99"
          = .error ⟨"25:99", "Неверный формат времени, используйте HH:MM"⟩ ∧
        storeAfterAdd [Plane.mk "Kazan" "102" "09:15"] "Moscow" "101" "25:99"
          = [Plane.mk "Kazan" "102" "09:15"]) :=
  ⟨by decide, add_invalid_time_fails _ _ _ _ (by decide)⟩


theorem dval_le_nine {c : Char} (h : isDigitChar c = true) : dval c ≤ 9 := by
  simp [isDigitChar, Bool.and_eq_true, decide_eq_true_eq] at h
  simp [dval]
  omega

theorem digit_ne_colon {c : Char} (h : isDigitChar c = true) :
    (c == ':') = false := by
  cases hb : (c == ':') with
  | false => rfl
  | true =>
    rw [beq_iff_eq] at hb
    subst hb
    exact absurd h (by decide)

theorem digitsVal_one (a : Char) : digitsVal [a] = dval a := by
  simp [digitsVal]

theorem digitsVal_two (a b : Char) :
    digitsVal [a, b] = 10 * dval a + dval b := by
  simp [digitsVal]

theorem parseHM_some_iff (t : String) :
    (∃ v, parseHM t = some v) ↔ specTimeAccepted t := by
  constructor
  · rintro ⟨v, hv⟩
    unfold parseHM at hv
    split at hv
    · rename_i a b c heq
      split at hv
      · rename_i hcond
        simp only [Bool.and_eq_true, beq_iff_eq, decide_eq_true_eq] at hcond
        obtain ⟨⟨hb, ha⟩, hc⟩ := hcond
        subst hb
        refine ⟨[a], [c], heq, by simp, by simp, by simp [ha], ?_, by simp,
          by simp, by simp [hc], ?_⟩
        · rw [digitsVal_one]
          exact le_trans (dval_le_nine ha) (by omega)
        · rw [digitsVal_one]
          exact le_trans (dval_le_nine hc) (by omega)
      · cases hv
    · rename_i a b c d heq
      split at hv
      · rename_i hcond
        simp only [Bool.and_eq_true, beq_iff_eq, decide_eq_true_eq] at hcond
        obtain ⟨⟨⟨⟨hb, ha⟩, hc⟩, hd2⟩, hval⟩ := hcond
        subst hb
        refine ⟨[a], [c, d], heq, by simp, by simp, by simp [ha], ?_, by simp,
          by simp, ?_, ?_⟩
        · rw [digitsVal_one]
          exact le_trans (dval_le_nine ha) (by omega)
        · intro x hx
          rcases List.mem_pair.mp hx with rfl | rfl
          · exact hc
          · exact hd2
        · rw [digitsVal_two]
          exact hval
      · split at hv
        · rename_i hcond
          simp only [Bool.and_eq_true, beq_iff_eq, decide_eq_true_eq] at hcond
          obtain ⟨⟨⟨⟨hc, ha⟩, hb⟩, hval⟩, hd2⟩ := hcond
          subst hc
          refine ⟨[a, b], [d], heq, by simp, by simp, ?_, ?_, by simp,
            by simp, by simp [hd2], ?_⟩
          · intro x hx
            rcases List.mem_pair.mp hx with rfl | rfl
            · exact ha
            · exact hb
          · rw [digitsVal_two]
            exact hval
          · rw [digitsVal_one]
            exact le_trans (dval_le_nine hd2) (by omega)
        · cases hv
    · rename_i a b c d e heq
      split at hv
      · rename_i hcond
        simp only [Bool.and_eq_true, beq_iff_eq, decide_eq_true_eq] at hcond
        obtain ⟨⟨⟨⟨⟨⟨hc, ha⟩, hb⟩, hhval⟩, hd2⟩, he⟩, hmval⟩ := hcond
        subst hc
        refine ⟨[a, b], [d, e], heq, by simp, by simp, ?_, ?_, by simp,
          by simp, ?_, ?_⟩
        · intro x hx
          rcases List.mem_pair.mp hx with rfl | rfl
          · exact ha
          · exact hb
        · rw [digitsVal_two]
          exact hhval
        · intro x hx
          rcases List.mem_pair.mp hx with rfl | rfl
          · exact hd2
          · exact he
        · rw [digitsVal_two]
          exact hmval
      · cases hv
    · cases hv
  · rintro ⟨hd, md, heq, hne, hlen, hdig, hval, mne, mlen, mdig, mval⟩
    have hdshape : (∃ a, hd = [a]) ∨ ∃ a b, hd = [a, b] := by
      match hd, hne, hlen with
      | [a], _, _ => exact Or.inl ⟨a, rfl⟩
      | [a, b], _, _ => exact Or.inr ⟨a, b, rfl⟩
    have mdshape : (∃ a, md = [a]) ∨ ∃ a b, md = [a, b] := by
      match md, mne, mlen with
      | [a], _, _ => exact Or.inl ⟨a, rfl⟩
      | [a, b], _, _ => exact Or.inr ⟨a, b, rfl⟩
    rcases hdshape with ⟨a, rfl⟩ | ⟨a, b, rfl⟩ <;>
      rcases mdshape with ⟨c, rfl⟩ | ⟨c, d, rfl⟩
    · refine ⟨(dval a, dval c), ?_⟩
      unfold parseHM
      simp only [heq, List.singleton_append]
      simp [hdig a (by simp), mdig c (by simp)]
    · rw [digitsVal_two] at mval
      refine ⟨(dval a, 10 * dval c + dval d), ?_⟩
      unfold parseHM
      simp only [heq, List.singleton_append]
      simp [hdig a (by simp), mdig c (by simp), mdig d (by simp), mval]
    · rw [digitsVal_two] at hval
      refine ⟨(10 * dval a + dval b, dval c), ?_⟩
      unfold parseHM
      simp only [heq, List.cons_append, List.singleton_append]
      simp [digit_ne_colon (hdig b (by simp)), hdig a (by simp),
        hdig b (by simp), mdig c (by simp), hval]
    · rw [digitsVal_two] at hval mval
      refine ⟨(10 * dval a + dval b, 10 * dval c + dval d), ?_⟩
      unfold parseHM
      simp only [heq, List.cons_append, List.singleton_append]
      simp [hdig a (by simp), hdig b (by simp), mdig c (by simp),
        mdig d (by simp), hval, mval]

/-- Claim C3 counterexample: the non-zero-padded string `"9:5"` is accepted
by `add` (CPython's `strptime` `%H` and `%M` also match single digits),
contrary to the claim that such a string is not accepted. -/
theorem add_accepts_unpadded_time :
    Planes.add [] "Moscow" "101" "9:5" = .ok [Plane.mk "Moscow" "101" "9:5"] :=
  rfl

/-- Claim C3 (amended): `add` accepts the time string exactly when it is a
24-hour `H:M` value made of a one- or two-digit hour in `[0, 23]`, a colon,
and a one- or two-digit minute in `[0, 59]` — zero padding is not required —
and any accepted string is stored in its original form, not normalized or
reformatted. -/
theorem add_accepted_iff_and_stores_verbatim (s : List Plane)
    (name no time : String) :
    ((∃ s₁, Planes.add s name no time = .ok s₁) ↔ specTimeAccepted time) ∧
    (∀ s₁, Planes.add s name no time = .ok s₁ →
      Plane.mk name no time ∈ s₁) := by
  constructor
  · rw [← parseHM_some_iff]
    constructor
    · rintro ⟨s₁, h⟩
      unfold Planes.add at h
      cases hp : parseHM time with
      | none => rw [hp] at h; cases h
      | some v => exact ⟨v, rfl⟩
    · rintro ⟨v, hv⟩
      exact ⟨_, by unfold Planes.add; rw [hv]⟩
  · intro s₁ h
    unfold Planes.add at h
    cases hp : parseHM time with
    | none => rw [hp] at h; cases h
    | some v =>
      rw [hp] at h
      cases h
      exact mem_sortByName.mpr (by simp)

theorem add_accepted_iff_and_stores_verbatim_witness :
    Plane.mk "Moscow" "101" "9:5" ∈ [Plane.mk "Moscow" "101" "9:5"] :=
  (add_accepted_iff_and_stores_verbatim [] "Moscow" "101" "9:5").2
    [Plane.mk "Moscow" "101" "9:5"] rfl

theorem select_loop_append (nomer : String) (l : List Plane) :
    ∀ acc : List Plane,
      l.foldl (fun r plane => if plane.no == nomer then r ++ [plane] else r) acc
        = acc ++ l.filter (fun p => p.no == nomer) := by
  induction l with
  | nil => simp
  | cons q qs ih =>
    intro acc
    rw [List.foldl_cons, List.filter_cons]
    cases h : (q.no == nomer) with
    | true =>
      simp only [h, if_true]
      rw [ih]
      simp
    | false =>
      simp only [h, Bool.false_eq_true, if_false]
      rw [ih]

/-- Claim C4: for every store (including the empty one) and identifier,
`select` returns exactly the records whose `no` field is string-equal to the
identifier, in store order, and on the empty store it returns the empty
list; it is a pure function of the store, so the store is unchanged and no
error is possible. -/
theorem select_eq_filter (s : List Plane) (nomer : String) :
    Planes.select s nomer = s.filter (fun p => p.no == nomer) ∧
    Planes.select [] nomer = [] := by
  refine ⟨?_, rfl⟩
  unfold Planes.select
  simpa using select_loop_append nomer s []

theorem setField_name_of_ne {f : Fields} {e : XElem} (h : e.tag ≠ "name") :
    (setField f e).name = f.name := by
  simp only [setField]
  split_ifs <;> first | rfl | simp_all

theorem setField_no_of_ne {f : Fields} {e : XElem} (h : e.tag ≠ "no") :
    (setField f e).no = f.no := by
  simp only [setField]
  split_ifs <;> first | rfl | simp_all

theorem setField_time_of_ne {f : Fields} {e : XElem} (h : e.tag ≠ "time") :
    (setField f e).time_str = f.time_str := by
  simp only [setField]
  split_ifs <;> first | rfl | simp_all

theorem emit_name_none {f : Fields} (h : f.name = none) : emit f = [] := by
  obtain ⟨fn, fo, ft⟩ := f
  simp only [] at h
  subst h
  rfl

theorem emit_no_none {f : Fields} (h : f.no = none) : emit f = [] := by
  obtain ⟨fn, fo, ft⟩ := f
  simp only [] at h
  subst h
  cases fn <;> rfl

theorem emit_time_none {f : Fields} (h : f.time_str = none) : emit f = [] := by
  obtain ⟨fn, fo, ft⟩ := f
  simp only [] at h
  subst h
  cases fn <;> cases fo <;> rfl

theorem emit_all_some {f : Fields} {n o t : String} (hn : f.name = some n)
    (ho : f.no = some o) (ht : f.time_str = some t) :
    emit f = [Plane.mk n o t] := by
  obtain ⟨fn, fo, ft⟩ := f
  simp only [] at hn ho ht
  subst hn
  subst ho
  subst ht
  rfl

theorem foldl_loadStep_acc (es : List XElem) :
    ∀ (f : Fields) (acc : List Plane),
      es.foldl loadStep (f, acc)
        = ((es.foldl loadStep (f, [])).1,
            acc ++ (es.foldl loadStep (f, [])).2) := by
  induction es with
  | nil => intro f acc; simp
  | cons e es ih =>
    intro f acc
    rw [List.foldl_cons, List.foldl_cons,
      show loadStep (f, acc) e
          = (setField f e, acc ++ emit (setField f e)) from rfl,
      show loadStep (f, []) e = (setField f e, emit (setField f e)) from rfl,
      ih (setField f e) (acc ++ emit (setField f e)),
      ih (setField f e) (emit (setField f e))]
    simp

theorem mem_acc_foldl_loadStep {x : Plane} {acc : List Plane}
    (es : List XElem) (f : Fields) (hx : x ∈ acc) :
    x ∈ (es.foldl loadStep (f, acc)).2 := by
  rw [foldl_loadStep_acc]
  exact List.mem_append_left _ hx

theorem loadEntry_acc (acc : List Plane) (e : XElem) :
    loadEntry acc e = acc ++ entryRecords e := by
  unfold loadEntry entryRecords loadEntry
  rw [foldl_loadStep_acc]

theorem foldl_loadEntry_flatten (es : List XElem) :
    ∀ acc : List Plane,
      es.foldl loadEntry acc = acc ++ (es.map entryRecords).flatten := by
  induction es with
  | nil => intro acc; simp
  | cons e es ih =>
    intro acc
    rw [List.foldl_cons, loadEntry_acc, ih]
    simp

theorem load_flatten (root : XElem) :
    Planes.load root = (root.children.map entryRecords).flatten := by
  unfold Planes.load
  rw [foldl_loadEntry_flatten]
  rfl

/-- Claim C7: when the read or parse phase of `load` fails (unreadable path,
malformed document), `load` propagates the failure and the in-memory store
is exactly what it was before the call — the list is reassigned only after
both the read and the parse have succeeded. -/
theorem load_failure_leaves_store (s : List Plane) (e : LoadFailure) :
    Planes.loadFrom s (.error e) = .error e ∧
      storeAfterLoad s (.error e) = s :=
  ⟨rfl, rfl⟩

/-- Claim C9 counterexample: a record element whose three required fields
are followed by one more sub-element does not always gain one record per
extra sub-element — a repeated `name` sub-element with no text clears the
`name` variable, so the fourth sub-element here appends nothing and the
element yields one record, not the two the claim predicts. -/
theorem load_extra_subelement_appends_nothing :
    entryRecords (XElem.mk "plane" none
        [XElem.mk "name" (some "Moscow") [], XElem.mk "no" (some "101") [],
         XElem.mk "time" (some "14:30") [], XElem.mk "name" none []])
      = [Plane.mk "Moscow" "101" "14:30"] ∧
    (entryRecords (XElem.mk "plane" none
        [XElem.mk "name" (some "Moscow") [], XElem.mk "no" (some "101") [],
         XElem.mk "time" (some "14:30") [], XElem.mk "name" none []])).length
      ≠ 2 := by
  constructor
  · rfl
  · decide

/-- Claim C9 (amended): during `load` the completeness check runs after
every sub-element, so once the three required fields of a record element are
all populated, each additional sub-element that does not clear a required
field — that is, any sub-element except a `name`/`no`/`time` element whose
text is missing — appends one more record, so a record element with more
than the minimal field sequence yields duplicate records. -/
theorem load_appends_per_subelement_after_population (es : List XElem) :
    ∀ (f : Fields) (acc : List Plane) (n o t : String),
      f.name = some n → f.no = some o → f.time_str = some t →
      (∀ c ∈ es, c.tag = "name" ∨ c.tag = "no" ∨ c.tag = "time" →
        c.text.isSome = true) →
      (es.foldl loadStep (f, acc)).2.length = acc.length + es.length := by
  induction es with
  | nil =>
    intro f acc n o t hn ho ht htext
    simp
  | cons c es ih =>
    intro f acc n o t hn ho ht htext
    rw [List.foldl_cons,
      show loadStep (f, acc) c
          = (setField f c, acc ++ emit (setField f c)) from rfl]
    have hfields : ∃ n₁ o₁ t₁, (setField f c).name = some n₁ ∧
        (setField f c).no = some o₁ ∧ (setField f c).time_str = some t₁ := by
      by_cases h1 : c.tag = "name"
      · rcases Option.isSome_iff_exists.mp
          (htext c (by simp) (Or.inl h1)) with ⟨v, hv⟩
        refine ⟨v, o, t, by simp [setField, h1, hv], ?_, ?_⟩
        · rw [setField_no_of_ne (by rw [h1]; decide)]
          exact ho
        · rw [setField_time_of_ne (by rw [h1]; decide)]
          exact ht
      · by_cases h2 : c.tag = "no"
        · rcases Option.isSome_iff_exists.mp
            (htext c (by simp) (Or.inr (Or.inl h2))) with ⟨v, hv⟩
          refine ⟨n, v, t, ?_, ?_, ?_⟩
          · rw [setField_name_of_ne h1]
            exact hn
          · simp [setField, h1, h2, hv]
          · rw [setField_time_of_ne (by rw [h2]; decide)]
            exact ht
        · by_cases h3 : c.tag = "time"
          · rcases Option.isSome_iff_exists.mp
              (htext c (by simp) (Or.inr (Or.inr h3))) with ⟨v, hv⟩
            refine ⟨n, o, v, ?_, ?_, ?_⟩
            · rw [setField_name_of_ne h1]
              exact hn
            · rw [setField_no_of_ne h2]
              exact ho
            · simp [setField, h1, h2, h3, hv]
          · refine ⟨n, o, t, ?_, ?_, ?_⟩
            · rw [setField_name_of_ne h1]
              exact hn
            · rw [setField_no_of_ne h2]
              exact ho
            · rw [setField_time_of_ne h3]
              exact ht
    rcases hfields with ⟨n₁, o₁, t₁, hn₁, ho₁, ht₁⟩
    rw [ih (setField f c) (acc ++ emit (setField f c)) n₁ o₁ t₁ hn₁ ho₁ ht₁
      (fun x hx hreq => htext x (by simp [hx]) hreq)]
    rw [emit_all_some hn₁ ho₁ ht₁]
    simp only [List.length_append, List.length_cons, List.length_nil]
    omega

theorem load_appends_per_subelement_after_population_witness :
    (([XElem.mk "remark" none [], XElem.mk "name" (some "Omsk") []] :
        List XElem).foldl loadStep
          (⟨some "Moscow", some "101", some "14:30"⟩,
            [Plane.mk "Moscow" "101" "14:30"])).2.length
      = 1 + 2 :=
  load_appends_per_subelement_after_population _ _ _ "Moscow" "101" "14:30"
    rfl rfl rfl (by decide)

theorem foldl_loadStep_name_absent (es : List XElem) :
    ∀ (f : Fields) (acc : List Plane),
      (∀ c ∈ es, c.tag ≠ "name") → f.name = none →
      (es.foldl loadStep (f, acc)).2 = acc := by
  induction es with
  | nil => intro f acc _ _; rfl
  | cons c cs ih =>
    intro f acc hes h
    rw [List.foldl_cons,
      show loadStep (f, acc) c
          = (setField f c, acc ++ emit (setField f c)) from rfl]
    have hname : (setField f c).name = none := by
      rw [setField_name_of_ne (hes c (by simp))]
      exact h
    rw [emit_name_none hname, List.append_nil]
    exact ih _ _ (fun x hx => hes x (by simp [hx])) hname

theorem foldl_loadStep_no_absent (es : List XElem) :
    ∀ (f : Fields) (acc : List Plane),
      (∀ c ∈ es, c.tag ≠ "no") → f.no = none →
      (es.foldl loadStep (f, acc)).2 = acc := by
  induction es with
  | nil => intro f acc _ _; rfl
  | cons c cs ih =>
    intro f acc hes h
    rw [List.foldl_cons,
      show loadStep (f, acc) c
          = (setField f c, acc ++ emit (setField f c)) from rfl]
    have hno : (setField f c).no = none := by
      rw [setField_no_of_ne (hes c (by simp))]
      exact h
    rw [emit_no_none hno, List.append_nil]
    exact ih _ _ (fun x hx => hes x (by simp [hx])) hno

theorem foldl_loadStep_time_absent (es : List XElem) :
    ∀ (f : Fields) (acc : List Plane),
      (∀ c ∈ es, c.tag ≠ "time") → f.time_str = none →
      (es.foldl loadStep (f, acc)).2 = acc := by
  induction es with
  | nil => intro f acc _ _; rfl
  | cons c cs ih =>
    intro f acc hes h
    rw [List.foldl_cons,
      show loadStep (f, acc) c
          = (setField f c, acc ++ emit (setField f c)) from rfl]
    have ht : (setField f c).time_str = none := by
      rw [setField_time_of_ne (hes c (by simp))]
      exact h
    rw [emit_time_none ht, List.append_nil]
    exact ih _ _ (fun x hx => hes x (by simp [hx])) ht

theorem fieldOk_head {tagName : String} {get : Fields → Option String}
    {v : String} {c : XElem} {cs : List XElem} {f : Fields}
    (h1 : c.tag = tagName) (hget : get (setField f c) = c.text)
    (hok : FieldOk tagName get v (c :: cs) f) :
    (∀ x ∈ cs, x.tag ≠ tagName) ∧ get (setField f c) = some v := by
  rcases hok with hflt | ⟨habs, _⟩
  · rw [List.filter_cons_of_pos (by simp [h1])] at hflt
    rw [List.map_cons] at hflt
    rw [List.cons.injEq] at hflt
    obtain ⟨htxt, hmap⟩ := hflt
    refine ⟨?_, by rw [hget, htxt]⟩
    intro x hx
    have hnil : cs.filter (fun c => c.tag == tagName) = [] :=
      List.map_eq_nil.mp hmap
    have := List.filter_eq_nil.mp hnil x hx
    simpa using this
  · exact absurd h1 (habs c (by simp))

theorem fieldOk_tail_of_ne {tagName : String} {get : Fields → Option String}
    {v : String} {c : XElem} {cs : List XElem} {f : Fields}
    (hset : get (setField f c) = get f) (h1 : c.tag ≠ tagName)
    (hok : FieldOk tagName get v (c :: cs) f) :
    FieldOk tagName get v cs (setField f c) := by
  rcases hok with hflt | ⟨habs, hf⟩
  · left
    rwa [List.filter_cons_of_neg (by simp [h1])] at hflt
  · right
    exact ⟨fun x hx => habs x (by simp [hx]), by rw [hset]; exact hf⟩

theorem fieldOk_value_of_absent {tagName : String}
    {get : Fields → Option String} {v : String} {c : XElem} {cs : List XElem}
    {f : Fields} (hset : get (setField f c) = get f) (h1 : c.tag ≠ tagName)
    (habs : ∀ x ∈ cs, x.tag ≠ tagName)
    (hok : FieldOk tagName get v (c :: cs) f) :
    get (setField f c) = some v := by
  rcases hok with hflt | ⟨_, hf⟩
  · rw [List.filter_cons_of_neg (by simp [h1]),
      List.filter_eq_nil.mpr (fun x hx => by simp [habs x hx])] at hflt
    cases hflt
  · rw [hset]
    exact hf

theorem mem_foldl_loadStep_unique (es : List XElem) :
    ∀ (f : Fields) (acc : List Plane) (a b t : String),
      FieldOk "name" Fields.name a es f →
      FieldOk "no" Fields.no b es f →
      FieldOk "time" Fields.time_str t es f →
      (∃ c ∈ es, c.tag = "name" ∨ c.tag = "no" ∨ c.tag = "time") →
      Plane.mk a b t ∈ (es.foldl loadStep (f, acc)).2 := by
  induction es with
  | nil =>
    intro f acc a b t _ _ _ hsome
    simp at hsome
  | cons c cs ih =>
    intro f acc a b t hn ho ht hsome
    rw [List.foldl_cons,
      show loadStep (f, acc) c
          = (setField f c, acc ++ emit (setField f c)) from rfl]
    by_cases h1 : c.tag = "name"
    · obtain ⟨habs, hval⟩ := fieldOk_head h1 (by simp [setField, h1]) hn
      by_cases hrem : ∃ x ∈ cs, x.tag = "name" ∨ x.tag = "no" ∨ x.tag = "time"
      · refine ih _ _ a b t (Or.inr ⟨habs, hval⟩) ?_ ?_ hrem
        · exact fieldOk_tail_of_ne
            (setField_no_of_ne (by rw [h1]; decide)) (by rw [h1]; decide) ho
        · exact fieldOk_tail_of_ne
            (setField_time_of_ne (by rw [h1]; decide)) (by rw [h1]; decide) ht
      · have hno : (setField f c).no = some b :=
          fieldOk_value_of_absent (setField_no_of_ne (by rw [h1]; decide))
            (by rw [h1]; decide)
            (fun x hx hxt => hrem ⟨x, hx, Or.inr (Or.inl hxt)⟩) ho
        have htime : (setField f c).time_str = some t :=
          fieldOk_value_of_absent (setField_time_of_ne (by rw [h1]; decide))
            (by rw [h1]; decide)
            (fun x hx hxt => hrem ⟨x, hx, Or.inr (Or.inr hxt)⟩) ht
        rw [emit_all_some hval hno htime]
        exact mem_acc_foldl_loadStep cs _ (by simp)
    · by_cases h2 : c.tag = "no"
      · obtain ⟨habs, hval⟩ := fieldOk_head h2 (by simp [setField, h1, h2]) ho
        by_cases hrem :
            ∃ x ∈ cs, x.tag = "name" ∨ x.tag = "no" ∨ x.tag = "time"
        · refine ih _ _ a b t ?_ (Or.inr ⟨habs, hval⟩) ?_ hrem
          · exact fieldOk_tail_of_ne (setField_name_of_ne h1) h1 hn
          · exact fieldOk_tail_of_ne
              (setField_time_of_ne (by rw [h2]; decide)) (by rw [h2]; decide)
              ht
        · have hname : (setField f c).name = some a :=
            fieldOk_value_of_absent (setField_name_of_ne h1) h1
              (fun x hx hxt => hrem ⟨x, hx, Or.inl hxt⟩) hn
          have htime : (setField f c).time_str = some t :=
            fieldOk_value_of_absent (setField_time_of_ne (by rw [h2]; decide))
              (by rw [h2]; decide)
              (fun x hx hxt => hrem ⟨x, hx, Or.inr (Or.inr hxt)⟩) ht
          rw [emit_all_some hname hval htime]
          exact mem_acc_foldl_loadStep cs _ (by simp)
      · by_cases h3 : c.tag = "time"
        · obtain ⟨habs, hval⟩ :=
            fieldOk_head h3 (by simp [setField, h1, h2, h3]) ht
          by_cases hrem :
              ∃ x ∈ cs, x.tag = "name" ∨ x.tag = "no" ∨ x.tag = "time"
          · refine ih _ _ a b t ?_ ?_ (Or.inr ⟨habs, hval⟩) hrem
            · exact fieldOk_tail_of_ne (setField_name_of_ne h1) h1 hn
            · exact fieldOk_tail_of_ne (setField_no_of_ne h2) h2 ho
          · have hname : (setField f c).name = some a :=
              fieldOk_value_of_absent (setField_name_of_ne h1) h1
                (fun x hx hxt => hrem ⟨x, hx, Or.inl hxt⟩) hn
            have hno : (setField f c).no = some b :=
              fieldOk_value_of_absent (setField_no_of_ne h2) h2
                (fun x hx hxt => hrem ⟨x, hx, Or.inr (Or.inl hxt)⟩) ho
            rw [emit_all_some hname hno hval]
            exact mem_acc_foldl_loadStep cs _ (by simp)
        · rcases hsome with ⟨x, hx, hxreq⟩
          rcases List.mem_cons.mp hx with rfl | hx
          · rcases hxreq with hh | hh | hh
            · exact absurd hh h1
            · exact absurd hh h2
            · exact absurd hh h3
          · exact ih _ _ a b t
              (fieldOk_tail_of_ne (setField_name_of_ne h1) h1 hn)
              (fieldOk_tail_of_ne (setField_no_of_ne h2) h2 ho)
              (fieldOk_tail_of_ne (setField_time_of_ne h3) h3 ht)
              ⟨x, hx, hxreq⟩

/-- Claim C6: a record element lacking one of the three required fields
contributes no record to the store (it is silently skipped), while a record
element containing each of the three required fields exactly once — in any
order, with any other sub-elements interleaved — contributes its record to
the resulting store; `load` is the concatenation of the records contributed
by the record elements, in document order. -/
theorem load_skips_incomplete_keeps_complete (root e : XElem)
    (he : e ∈ root.children) :
    Planes.load root = (root.children.map entryRecords).flatten ∧
    (((∀ c ∈ e.children, c.tag ≠ "name") ∨ (∀ c ∈ e.children, c.tag ≠ "no") ∨
        (∀ c ∈ e.children, c.tag ≠ "time")) → entryRecords e = []) ∧
    (∀ a b t : String,
      (e.children.filter (fun c => c.tag == "name")).map (fun c => c.text)
          = [some a] →
      (e.children.filter (fun c => c.tag == "no")).map (fun c => c.text)
          = [some b] →
      (e.children.filter (fun c => c.tag == "time")).map (fun c => c.text)
          = [some t] →
      Plane.mk a b t ∈ Planes.load root) := by
  refine ⟨load_flatten root, ?_, ?_⟩
  · intro hmiss
    rcases hmiss with h | h | h
    · exact foldl_loadStep_name_absent e.children _ _ h rfl
    · exact foldl_loadStep_no_absent e.children _ _ h rfl
    · exact foldl_loadStep_time_absent e.children _ _ h rfl
  · intro a b t hna hnb hnt
    have hsome : ∃ c ∈ e.children,
        c.tag = "name" ∨ c.tag = "no" ∨ c.tag = "time" := by
      have hne : e.children.filter (fun c => c.tag == "name") ≠ [] := by
        intro hh
        rw [hh] at hna
        cases hna
      rcases List.exists_mem_of_ne_nil _ hne with ⟨x, hx⟩
      rcases List.mem_filter.mp hx with ⟨hx1, hx2⟩
      exact ⟨x, hx1, Or.inl (by simpa using hx2)⟩
    have hmem : Plane.mk a b t ∈ entryRecords e :=
      mem_foldl_loadStep_unique e.children ⟨none, none, none⟩ [] a b t
        (Or.inl hna) (Or.inl hnb) (Or.inl hnt) hsome
    rw [load_flatten]
    rw [List.mem_flatten]
    exact ⟨entryRecords e, List.mem_map.mpr ⟨e, he, rfl⟩, hmem⟩

theorem load_skips_incomplete_keeps_complete_witness :
    Plane.mk "Omsk" "77" "10:00" ∈ Planes.load (XElem.mk "planes" none
      [XElem.mk "plane" none
        [XElem.mk "time" (some "10:00") [], XElem.mk "name" (some "Omsk") [],
         XElem.mk "seats" (some "300") [], XElem.mk "no" (some "77") []]]) :=
  (load_skips_incomplete_keeps_complete
      (XElem.mk "planes" none
        [XElem.mk "plane" none
          [XElem.mk "time" (some "10:00") [],
           XElem.mk "name" (some "Omsk") [],
           XElem.mk "seats" (some "300") [], XElem.mk "no" (some "77") []]])
      (XElem.mk "plane" none
        [XElem.mk "time" (some "10:00") [], XElem.mk "name" (some "Omsk") [],
         XElem.mk "seats" (some "300") [], XElem.mk "no" (some "77") []])
      (by simp)).2.2 "Omsk" "77" "10:00" rfl rfl rfl

theorem etWriteRead_def (t : String) (txt : Option String) (cs : List XElem) :
    etWriteRead ⟨t, txt, cs⟩ = ⟨t, normText txt, cs.map etWriteRead⟩ := by
  rw [etWriteRead]
  congr 1
  exact List.attach_map_val cs etWriteRead

theorem normText_none : normText none = none := rfl

theorem etWriteRead_planeElement (p : Plane) :
    etWriteRead (planeElement p)
      = XElem.mk "plane" none
          [XElem.mk "name" (normText (some p.name)) [],
           XElem.mk "no" (normText (some p.no)) [],
           XElem.mk "time" (normText (some p.time_str)) []] := by
  simp only [planeElement, etWriteRead_def, List.map_cons, List.map_nil,
    normText_none]

theorem loadEntry_planeElement (acc : List Plane) (p : Plane) :
    loadEntry acc (etWriteRead (planeElement p))
      = acc ++ if keptInRoundTrip p then [p] else [] := by
  rw [etWriteRead_planeElement]
  by_cases h1 : p.name = "" <;> by_cases h2 : p.no = "" <;>
    by_cases h3 : p.time_str = "" <;>
      simp [loadEntry, loadStep, setField, emit, normText, keptInRoundTrip,
        h1, h2, h3]

theorem foldl_loadEntry_saved (s : List Plane) :
    ∀ acc : List Plane,
      (s.map (fun p => etWriteRead (planeElement p))).foldl loadEntry acc
        = acc ++ s.filter keptInRoundTrip := by
  induction s with
  | nil => intro acc; simp
  | cons p ps ih =>
    intro acc
    rw [List.map_cons, List.foldl_cons, loadEntry_planeElement, ih,
      List.filter_cons]
    by_cases h : keptInRoundTrip p = true
    · simp [h]
    · simp [h]

theorem roundTrip_eq_filter (s : List Plane) :
    saveLoadRoundTrip s = s.filter keptInRoundTrip := by
  unfold saveLoadRoundTrip
  have h1 : etWriteRead (Planes.save s)
      = XElem.mk "planes" none ((s.map planeElement).map etWriteRead) := by
    rw [show Planes.save s = XElem.mk "planes" none (s.map planeElement)
      from rfl, etWriteRead_def, normText_none]
  rw [h1]
  show ((s.map planeElement).map etWriteRead).foldl loadEntry [] = _
  rw [List.map_map]
  simpa [Function.comp] using foldl_loadEntry_saved s []

/-- Claim C5 counterexample: the round-trip law fails as stated for every
store — a store whose single record has an empty name comes back empty,
because the empty text serializes to an empty tag that reads back as a
missing field. -/
theorem save_load_drops_empty_name :
    saveLoadRoundTrip [Plane.mk "" "101" "14:30"]
      ≠ [Plane.mk "" "101" "14:30"] := by
  rw [roundTrip_eq_filter]
  decide

/-- Claim C5 (amended): for every store in which every record has a
non-empty name, identifier, and time string, `save(path)` followed by
`load(path)` on the same path reproduces the store exactly: the same records
in the same order with identical field values, including the exact original
time string of each record.  A record with an empty-string field is dropped
by the round trip (claim C10). -/
theorem save_load_round_trip (s : List Plane)
    (h : ∀ p ∈ s, p.name ≠ "" ∧ p.no ≠ "" ∧ p.time_str ≠ "") :
    saveLoadRoundTrip s = s := by
  rw [roundTrip_eq_filter]
  apply List.filter_eq_self.mpr
  intro p hp
  rcases h p hp with ⟨h1, h2, h3⟩
  simp [keptInRoundTrip, h1, h2, h3]

theorem save_load_round_trip_witness :
    (∀ p ∈ [Plane.mk "Kazan" "102" "09:15", Plane.mk "Moscow" "101" "14:30"],
        p.name ≠ "" ∧ p.no ≠ "" ∧ p.time_str ≠ "") ∧
      saveLoadRoundTrip
          [Plane.mk "Kazan" "102" "09:15", Plane.mk "Moscow" "101" "14:30"]
        = [Plane.mk "Kazan" "102" "09:15", Plane.mk "Moscow" "101" "14:30"] :=
  ⟨by decide, save_load_round_trip _ (by decide)⟩

/-- Claim C10: for every store containing a record one of whose fields is
the empty string, save then load omits that record — the empty field
serializes to an element whose text reads back as missing, so the record
element is treated as lacking a required field. -/
theorem save_load_omits_empty_field (s : List Plane) (p : Plane)
    (hp : p ∈ s) (hempty : p.name = "" ∨ p.no = "" ∨ p.time_str = "") :
    p ∉ saveLoadRoundTrip s := by
  rw [roundTrip_eq_filter]
  intro hmem
  have hkept := List.of_mem_filter hmem
  rcases hempty with h | h | h <;> simp [keptInRoundTrip, h] at hkept

theorem save_load_omits_empty_field_witness :
    Plane.mk "" "101" "14:30" ∈ [Plane.mk "" "101" "14:30"] ∧
      Plane.mk "" "101" "14:30"
        ∉ saveLoadRoundTrip [Plane.mk "" "101" "14:30"] :=
  ⟨by decide, save_load_omits_empty_field _ _ (by decide) (by decide)⟩

/-- Claim C8: `list` (the `__str__` rendering) is a pure function of the
store: its line list always starts with a border line and the header row
naming the three data columns, ends with a border line, has these even for
the empty store (zero data rows), and contains exactly one data row per
record, numbered from 1 in store order, between the borders. -/
theorem table_renders_store (s : List Plane) :
    (tableLines s).length = s.length + 4 ∧
    tableLines [] = [tableLine, tableHeader, tableLine, tableLine] ∧
    (tableLines s)[0]? = some tableLine ∧
    (tableLines s)[1]? = some tableHeader ∧
    (tableLines s).getLast? = some tableLine ∧
    (∀ i p, s[i]? = some p →
      (tableLines s)[i + 3]? = some (tableRow (i + 1) p)) ∧
    Planes.str s = "\n".intercalate (tableLines s) := by
  refine ⟨?_, rfl, rfl, rfl, ?_, ?_, rfl⟩
  · simp [tableLines, List.enumFrom_length]
  · show (([tableLine, tableHeader, tableLine] : List String)
        ++ ((List.enumFrom 1 s).map (fun ip => tableRow ip.1 ip.2)
          ++ [tableLine])).getLast? = some tableLine
    rw [List.getLast?_append, List.getLast?_append]
    rfl
  · intro i p hp
    have hi : i < s.length := by
      by_contra hge
      push_neg at hge
      rw [List.getElem?_eq_none hge] at hp
      cases hp
    unfold tableLines
    rw [List.append_assoc]
    rw [List.getElem?_append_right (by simp)]
    rw [show i + 3 - ([tableLine, tableHeader, tableLine] : List String).length
        = i from by simp]
    rw [List.getElem?_append_left
      (by simp only [List.length_map, List.enumFrom_length]; exact hi)]
    rw [List.getElem?_map, List.getElem?_enumFrom, hp]
    simp [Nat.add_comm]

theorem table_renders_store_witness :
    (tableLines [Plane.mk "Kazan" "102" "09:15",
        Plane.mk "Moscow" "101" "14:30"])[0 + 3]?
      = some (tableRow (0 + 1) (Plane.mk "Kazan" "102" "09:15")) :=
  (table_renders_store
      [Plane.mk "Kazan" "102" "09:15", Plane.mk "Moscow" "101" "14:30"]
    ).2.2.2.2.2.1 0 (Plane.mk "Kazan" "102" "09:15") rfl
